import Mathlib

/-!
Shallow embedding of the image-layer resolution and build-plan construction
engine of `scripts/run_dev/build_image_layers.py`, together with theorems
settling the specification claims about it.

The filesystem is modelled as the list of paths of the files that exist
(`fs : List String`); a probe `Path(p).is_file()` becomes `p ∈ fs`.
MD5 hashing is modelled by explicit hash-function parameters since the
digests themselves are opaque to all of the algorithms.
-/

set_option maxHeartbeats 1000000

/-- One discoverable Dockerfile layer; mirrors class `Dockerfile` of
`build_image_layers.py` (fields `dockerfile_path_`, `context_dir_`,
`image_key_`).  The lazily cached md5 field is omitted: hashing is modelled
by a function parameter, so caching is observationally irrelevant. -/
structure Dockerfile where
  dockerfilePath : String
  contextDir : String
  imageKeys : List String
deriving DecidableEq

/-- `str(ImageKey)` / `ImageKey.__str__`: the dot-joined key string. -/
def imageKeyStr (ks : List String) : String := String.intercalate "." ks

/-- `Dockerfile.image_key()`: the dotted composite key of the layer. -/
def Dockerfile.imageKey (d : Dockerfile) : String := imageKeyStr d.imageKeys

/-- Split a character list on a separator (like `String.splitOn` for a
one-character separator). -/
def splitChars (sep : Char) : List Char → List (List Char)
  | [] => [[]]
  | c :: cs =>
      let r := splitChars sep cs
      if c = sep then [] :: r
      else
        match r with
        | [] => [[c]]
        | w :: ws => (c :: w) :: ws

/-- `pathlib.Path.name` of the layer's path: the component after the last
slash. -/
def Dockerfile.fileName (d : Dockerfile) : String :=
  ⟨((splitChars (Char.ofNat 47) d.dockerfilePath.data).getLast?).getD
    d.dockerfilePath.data⟩

/-- The `ImageBuildPlan` value returned by `resolve_dockerfiles`: the list of
resolved Dockerfiles plus the original key sequence it was resolved from. -/
structure ImageBuildPlan where
  dockerfiles : List Dockerfile
  planImageKey : List String
deriving DecidableEq

/-- Candidate path probed by `resolve_dockerfiles`:
`f"{docker_search_dir}/Dockerfile.{layer_image_suffix}"`. -/
def dockerfileCandidate (dir layerSuffix : String) : String :=
  dir ++ "/Dockerfile." ++ layerSuffix

/-- Inner loop `for docker_search_dir in docker_search_dirs` of
`resolve_dockerfiles`: the first search directory (in configured order)
containing the candidate file, if any. -/
def searchDirs (fs : List String) (layerSuffix : String) : List String → Option String
  | [] => none
  | d :: ds =>
      if dockerfileCandidate d layerSuffix ∈ fs then some d
      else searchDirs fs layerSuffix ds

/-- The descending scan `for i in reversed(range(len(image_ids)))` of
`resolve_dockerfiles`, including the `if ignore_composite_keys and i == 1:
break` early exit.  The argument is the current index `i`; the scan starts at
`ids.length - 1`.  Returns the matched index together with the matching
search directory. -/
def scanFrom (fs dirs : List String) (flag : Bool) (ids : List String) :
    Nat → Option (Nat × String)
  | 0 =>
      match searchDirs fs (imageKeyStr (ids.take 1)) dirs with
      | some d => some (0, d)
      | none => none
  | i + 1 =>
      if flag && (i + 1 == 1) then none
      else
        match searchDirs fs (imageKeyStr (ids.take (i + 2))) dirs with
        | some d => some (i + 1, d)
        | none => scanFrom fs dirs flag ids i

/-- The `while image_ids:` loop of `resolve_dockerfiles`, with the remaining
key list as explicit state.  `fuel` bounds the number of loop iterations;
since every iteration removes at least one key from the front, `ids.length`
iterations always suffice (see `resolveGo_fuel`), so the `0, _ :: _` clause
is unreachable from `resolve_dockerfiles`. -/
def resolveGo (fs dirs : List String) (flag : Bool) :
    Nat → List String → Option (List Dockerfile)
  | _, [] => some []
  | 0, _ :: _ => none
  | fuel + 1, x :: rest =>
      let ids := x :: rest
      match scanFrom fs dirs flag ids (ids.length - 1) with
      | none => none
      | some (i, d) =>
          (resolveGo fs dirs flag fuel (ids.drop (i + 1))).map
            (fun ds =>
              { dockerfilePath := dockerfileCandidate d (imageKeyStr (ids.take (i + 1))),
                contextDir := d,
                imageKeys := ids.take (i + 1) } :: ds)

/-- `resolve_dockerfiles(image_key, docker_search_dirs, ignore_composite_keys)`:
`none` models the `return None` failure, `some` the returned
`ImageBuildPlan(dockerfiles, image_key)`. -/
def resolve_dockerfiles (fs dirs : List String) (flag : Bool)
    (ids : List String) : Option ImageBuildPlan :=
  (resolveGo fs dirs flag ids.length ids).map (fun ds => ⟨ds, ids⟩)

/-- Any successful run of the resolution loop produces layers whose key
slices concatenate back to the input key list. -/
theorem resolveGo_join (fs dirs : List String) (flag : Bool) :
    ∀ (fuel : Nat) (ids : List String) (ds : List Dockerfile),
      resolveGo fs dirs flag fuel ids = some ds →
      (ds.map Dockerfile.imageKeys).flatten = ids := by
  intro fuel
  induction fuel with
  | zero =>
      intro ids ds h
      cases ids with
      | nil =>
          simp only [resolveGo] at h
          cases h
          simp
      | cons x rest => simp [resolveGo] at h
  | succ n ih =>
      intro ids ds h
      cases ids with
      | nil =>
          simp only [resolveGo] at h
          cases h
          simp
      | cons x rest =>
          simp only [resolveGo] at h
          cases hscan : scanFrom fs dirs flag (x :: rest) ((x :: rest).length - 1) with
          | none => rw [hscan] at h; simp at h
          | some id =>
              rw [hscan] at h
              obtain ⟨i, d⟩ := id
              simp only [Option.map_eq_some'] at h
              obtain ⟨ds', hds', rfl⟩ := h
              have hjoin := ih ((x :: rest).drop (i + 1)) ds' hds'
              simp only [List.map_cons, List.flatten_cons, Dockerfile.imageKey, hjoin]
              exact List.take_append_drop (i + 1) (x :: rest)

/-- C1: for every key sequence and search path for which resolution succeeds,
concatenating the composite keys of the resulting chain's layer definitions
in chain order reproduces the original key sequence exactly — no gaps, no
overlaps. -/
theorem C1_chain_covers_key_sequence (fs dirs : List String) (flag : Bool)
    (ids : List String) (plan : ImageBuildPlan)
    (h : resolve_dockerfiles fs dirs flag ids = some plan) :
    (plan.dockerfiles.map Dockerfile.imageKeys).flatten = ids := by
  simp only [resolve_dockerfiles, Option.map_eq_some'] at h
  obtain ⟨ds, hds, rfl⟩ := h
  exact resolveGo_join fs dirs flag ids.length ids ds hds

/-- Witness for C1 at a concrete filesystem: two single-key layers. -/
theorem C1_chain_covers_key_sequence_witness :
    (((resolve_dockerfiles ["D/Dockerfile.a", "D/Dockerfile.b"] ["D"] false
        ["a", "b"]).getD ⟨[], []⟩).dockerfiles.map Dockerfile.imageKeys).flatten
      = ["a", "b"] := by
  have h : resolve_dockerfiles ["D/Dockerfile.a", "D/Dockerfile.b"] ["D"] false ["a", "b"]
      = some ⟨[⟨"D/Dockerfile.a", "D", ["a"]⟩, ⟨"D/Dockerfile.b", "D", ["b"]⟩], ["a", "b"]⟩ := by
    decide
  have := C1_chain_covers_key_sequence ["D/Dockerfile.a", "D/Dockerfile.b"] ["D"] false
    ["a", "b"] ⟨[⟨"D/Dockerfile.a", "D", ["a"]⟩, ⟨"D/Dockerfile.b", "D", ["b"]⟩], ["a", "b"]⟩ h
  rw [h]
  exact this

/-- C10: the empty key sequence resolves successfully, to a plan with an
empty layer chain — `resolve_dockerfiles` does not return the no-plan
failure for it, whatever the search path. -/
theorem C10_empty_keys_resolve (fs dirs : List String) (flag : Bool) :
    resolve_dockerfiles fs dirs flag [] = some ⟨[], []⟩ := rfl

/-- The comparator `compare_image_keys` inside `ImageKey.from_key_set`: keys
both present in the preference list order by index, a present key sorts
before an absent one, two absent keys compare lexicographically.  It returns
only `-1` or `1`, exactly as the source does. -/
def compare_image_keys (keyOrder : List String) (a b : String) : Int :=
  if a ∈ keyOrder ∧ b ∈ keyOrder then
    (if keyOrder.indexOf a < keyOrder.indexOf b then -1 else 1)
  else if a ∈ keyOrder then -1
  else if b ∈ keyOrder then 1
  else if a < b then -1 else 1

/-- Insert an element into a list, before the first element it compares `-1`
against. -/
def insertCmp {α : Type} (cmp : α → α → Int) (a : α) : List α → List α
  | [] => [a]
  | b :: bs => if cmp a b = -1 then a :: b :: bs else b :: insertCmp cmp a bs

/-- Comparator sort.  `sorted(..., key=functools.cmp_to_key(cmp))` in the
source; on duplicate-free inputs whose comparator is a strict total order —
which is the case for every reachable call — any correct sort produces the
same, unique, strictly ordered permutation, so insertion sort is an
extensionally faithful model. -/
def sortCmp {α : Type} (cmp : α → α → Int) : List α → List α
  | [] => []
  | a :: as => insertCmp cmp a (sortCmp cmp as)

/-- `ImageKey.from_key_set(image_key_set, key_order)`: the canonical ordering
of a key set (`key_order=None` is modelled by the empty list, as in
`key_order = key_order or []`). -/
def from_key_set (imageKeySet : List String) (keyOrder : List String) : List String :=
  sortCmp (compare_image_keys keyOrder) imageKeySet

theorem insertCmp_perm {α : Type} (cmp : α → α → Int) (a : α) :
    ∀ l : List α, (insertCmp cmp a l).Perm (a :: l) := by
  intro l
  induction l with
  | nil => simp [insertCmp]
  | cons b bs ih =>
      by_cases h : cmp a b = -1
      · simp [insertCmp, h]
      · simp only [insertCmp, h, if_false]
        exact (ih.cons b).trans (List.Perm.swap a b bs)

theorem sortCmp_perm {α : Type} (cmp : α → α → Int) :
    ∀ l : List α, (sortCmp cmp l).Perm l := by
  intro l
  induction l with
  | nil => simp [sortCmp]
  | cons a as ih => exact (insertCmp_perm cmp a (sortCmp cmp as)).trans (ih.cons a)

theorem insertCmp_pairwise {α : Type} (cmp : α → α → Int) (a : α) :
    ∀ l : List α,
      (∀ b ∈ l, cmp a b ≠ -1 → cmp b a = -1) →
      (∀ x ∈ a :: l, ∀ y ∈ a :: l, ∀ z ∈ a :: l,
          cmp x y = -1 → cmp y z = -1 → cmp x z = -1) →
      l.Pairwise (fun x y => cmp x y = -1) →
      (insertCmp cmp a l).Pairwise (fun x y => cmp x y = -1) := by
  intro l
  induction l with
  | nil => intro _ _ _; simp [insertCmp]
  | cons b bs ih =>
      intro htot htrans hp
      rw [List.pairwise_cons] at hp
      obtain ⟨hb, hbs⟩ := hp
      by_cases h : cmp a b = -1
      · rw [insertCmp, if_pos h, List.pairwise_cons]
        refine ⟨?_, List.pairwise_cons.mpr ⟨hb, hbs⟩⟩
        intro y hy
        rcases List.mem_cons.mp hy with hyb | hymem
        · exact hyb ▸ h
        · exact htrans a (by simp) b (by simp) y (by simp [hymem]) h (hb y hymem)
      · rw [insertCmp, if_neg h, List.pairwise_cons]
        constructor
        · intro y hy
          have hy' := (insertCmp_perm cmp a bs).mem_iff.mp hy
          rcases List.mem_cons.mp hy' with hya | hymem
          · subst hya
            exact htot b (by simp) h
          · exact hb y hymem
        · refine ih ?_ ?_ hbs
          · intro c hc hne
            exact htot c (by simp [hc]) hne
          · intro x hx y hy z hz
            have hsub : ∀ w, w ∈ a :: bs → w ∈ a :: b :: bs := by
              intro w hw
              rcases List.mem_cons.mp hw with h1 | h2
              · simp [h1]
              · simp [h2]
            exact htrans x (hsub x hx) y (hsub y hy) z (hsub z hz)

theorem sortCmp_pairwise {α : Type} (cmp : α → α → Int) :
    ∀ l : List α,
      l.Nodup →
      (∀ x ∈ l, ∀ y ∈ l, x ≠ y → cmp x y ≠ -1 → cmp y x = -1) →
      (∀ x ∈ l, ∀ y ∈ l, ∀ z ∈ l, cmp x y = -1 → cmp y z = -1 → cmp x z = -1) →
      (sortCmp cmp l).Pairwise (fun x y => cmp x y = -1) := by
  intro l
  induction l with
  | nil => intro _ _ _; simp [sortCmp]
  | cons a as ih =>
      intro hnd htot htrans
      rw [List.nodup_cons] at hnd
      obtain ⟨hamem, hnd'⟩ := hnd
      have hmem : ∀ x, x ∈ sortCmp cmp as → x ∈ as :=
        fun x hx => (sortCmp_perm cmp as).mem_iff.mp hx
      refine insertCmp_pairwise cmp a (sortCmp cmp as) ?_ ?_ ?_
      · intro b hb hne
        have hbas := hmem b hb
        refine htot a (by simp) b (by simp [hbas]) ?_ hne
        intro heq
        exact hamem (heq ▸ hbas)
      · intro x hx y hy z hz
        have hsub : ∀ w, w ∈ a :: sortCmp cmp as → w ∈ a :: as := by
          intro w hw
          rcases List.mem_cons.mp hw with h1 | h2
          · simp [h1]
          · simp [hmem w h2]
        exact htrans x (hsub x hx) y (hsub y hy) z (hsub z hz)
      · refine ih hnd' ?_ ?_
        · intro x hx y hy
          exact htot x (by simp [hx]) y (by simp [hy])
        · intro x hx y hy z hz
          exact htrans x (by simp [hx]) y (by simp [hy]) z (by simp [hz])

/-- Two pairwise-strictly-ordered lists that are permutations of each other
are equal, provided the strict order is asymmetric. -/
theorem pairwise_unique {α : Type} (R : α → α → Prop)
    (hasym : ∀ x y, R x y → R y x → False) :
    ∀ l₁ l₂ : List α, l₁.Perm l₂ → l₁.Pairwise R → l₂.Pairwise R → l₁ = l₂ := by
  intro l₁
  induction l₁ with
  | nil =>
      intro l₂ hperm _ _
      exact hperm.nil_eq
  | cons a t₁ ih =>
      intro l₂ hperm hp₁ hp₂
      cases l₂ with
      | nil => exact absurd hperm.eq_nil (by simp)
      | cons b t₂ =>
          by_cases hab : a = b
          · subst hab
            rw [ih t₂ hperm.cons_inv (List.pairwise_cons.mp hp₁).2
              (List.pairwise_cons.mp hp₂).2]
          · exfalso
            have hat₂ : a ∈ t₂ := by
              have hm : a ∈ b :: t₂ := hperm.mem_iff.mp (by simp)
              rcases List.mem_cons.mp hm with h1 | h2
              · exact absurd h1 hab
              · exact h2
            have hbt₁ : b ∈ t₁ := by
              have hm : b ∈ a :: t₁ := hperm.symm.mem_iff.mp (by simp)
              rcases List.mem_cons.mp hm with h1 | h2
              · exact absurd h1.symm hab
              · exact h2
            exact hasym a b ((List.pairwise_cons.mp hp₁).1 b hbt₁)
              ((List.pairwise_cons.mp hp₂).1 a hat₂)

/-- For a comparator that is a strict total order on the (duplicate-free)
elements at hand, `sortCmp` is invariant under permutation of its input. -/
theorem sortCmp_eq_of_perm {α : Type} (cmp : α → α → Int) (l₁ l₂ : List α)
    (hperm : l₁.Perm l₂) (hnd : l₁.Nodup)
    (hasym : ∀ x y, cmp x y = -1 → cmp y x = -1 → False)
    (htot : ∀ x ∈ l₁, ∀ y ∈ l₁, x ≠ y → cmp x y ≠ -1 → cmp y x = -1)
    (htrans : ∀ x ∈ l₁, ∀ y ∈ l₁, ∀ z ∈ l₁,
        cmp x y = -1 → cmp y z = -1 → cmp x z = -1) :
    sortCmp cmp l₁ = sortCmp cmp l₂ := by
  refine pairwise_unique _ hasym _ _
    ((sortCmp_perm cmp l₁).trans (hperm.trans (sortCmp_perm cmp l₂).symm))
    (sortCmp_pairwise cmp l₁ hnd htot htrans)
    (sortCmp_pairwise cmp l₂ (hperm.nodup_iff.mp hnd) ?_ ?_)
  · intro x hx y hy
    exact htot x (hperm.mem_iff.mpr hx) y (hperm.mem_iff.mpr hy)
  · intro x hx y hy z hz
    exact htrans x (hperm.mem_iff.mpr hx) y (hperm.mem_iff.mpr hy)
      z (hperm.mem_iff.mpr hz)

theorem ite_neg_one {c : Prop} [Decidable c] :
    ((if c then (-1 : Int) else 1) = -1) ↔ c := by
  split_ifs with h
  · exact iff_of_true rfl h
  · constructor
    · intro e
      exact absurd e (by decide)
    · intro hc
      exact absurd hc h

theorem cik_both (ko : List String) (a b : String) (ha : a ∈ ko) (hb : b ∈ ko) :
    compare_image_keys ko a b
      = (if ko.indexOf a < ko.indexOf b then -1 else 1) := by
  unfold compare_image_keys
  rw [if_pos ⟨ha, hb⟩]

theorem cik_left (ko : List String) (a b : String) (ha : a ∈ ko) (hb : b ∉ ko) :
    compare_image_keys ko a b = -1 := by
  unfold compare_image_keys
  rw [if_neg (fun h => hb h.2), if_pos ha]

theorem cik_right (ko : List String) (a b : String) (ha : a ∉ ko) (hb : b ∈ ko) :
    compare_image_keys ko a b = 1 := by
  unfold compare_image_keys
  rw [if_neg (fun h => ha h.1), if_neg ha, if_pos hb]

theorem cik_none (ko : List String) (a b : String) (ha : a ∉ ko) (hb : b ∉ ko) :
    compare_image_keys ko a b = (if a < b then -1 else 1) := by
  unfold compare_image_keys
  rw [if_neg (fun h => ha h.1), if_neg ha, if_neg hb]

theorem cik_asym (ko : List String) (a b : String) :
    compare_image_keys ko a b = -1 →
    compare_image_keys ko b a = -1 → False := by
  by_cases ha : a ∈ ko <;> by_cases hb : b ∈ ko
  · rw [cik_both ko a b ha hb, cik_both ko b a hb ha, ite_neg_one, ite_neg_one]
    omega
  · intro _ h2
    rw [cik_right ko b a hb ha] at h2
    exact absurd h2 (by decide)
  · intro h1 _
    rw [cik_right ko a b ha hb] at h1
    exact absurd h1 (by decide)
  · rw [cik_none ko a b ha hb, cik_none ko b a hb ha, ite_neg_one, ite_neg_one]
    exact fun h1 h2 => lt_asymm h1 h2

theorem cik_total (ko : List String) (a b : String) (hne : a ≠ b) :
    compare_image_keys ko a b ≠ -1 →
    compare_image_keys ko b a = -1 := by
  by_cases ha : a ∈ ko <;> by_cases hb : b ∈ ko
  · rw [cik_both ko a b ha hb, cik_both ko b a hb ha, ne_eq, ite_neg_one,
      ite_neg_one]
    have hne' : ko.indexOf a ≠ ko.indexOf b :=
      fun e => hne ((List.indexOf_inj ha hb).mp e)
    omega
  · intro h
    exact absurd (cik_left ko a b ha hb) h
  · intro _
    exact cik_left ko b a hb ha
  · rw [cik_none ko a b ha hb, cik_none ko b a hb ha, ne_eq, ite_neg_one,
      ite_neg_one]
    intro h
    exact lt_of_le_of_ne (not_lt.mp h) (fun e => hne e.symm)

theorem cik_trans (ko : List String) (x y z : String) :
    compare_image_keys ko x y = -1 →
    compare_image_keys ko y z = -1 →
    compare_image_keys ko x z = -1 := by
  by_cases hx : x ∈ ko <;> by_cases hy : y ∈ ko <;> by_cases hz : z ∈ ko
  · rw [cik_both ko x y hx hy, cik_both ko y z hy hz, cik_both ko x z hx hz,
      ite_neg_one, ite_neg_one, ite_neg_one]
    omega
  · intro _ _
    exact cik_left ko x z hx hz
  · intro _ h2
    rw [cik_right ko y z hy hz] at h2
    exact absurd h2 (by decide)
  · intro _ _
    exact cik_left ko x z hx hz
  · intro h1 _
    rw [cik_right ko x y hx hy] at h1
    exact absurd h1 (by decide)
  · intro h1 _
    rw [cik_right ko x y hx hy] at h1
    exact absurd h1 (by decide)
  · intro _ h2
    rw [cik_right ko y z hy hz] at h2
    exact absurd h2 (by decide)
  · rw [cik_none ko x y hx hy, cik_none ko y z hy hz, cik_none ko x z hx hz,
      ite_neg_one, ite_neg_one, ite_neg_one]
    exact lt_trans

/-- C6: resolution after canonical key ordering is insensitive to the input
permutation: for any duplicate-free key set, any preference list and any
search path, two permutations of the set produce the identical layer chain
through `ImageKey.from_key_set` followed by `resolve_dockerfiles`. -/
theorem C6_order_independence (fs dirs : List String) (flag : Bool)
    (keyOrder l₁ l₂ : List String) (hperm : l₁.Perm l₂) (hnd : l₁.Nodup) :
    resolve_dockerfiles fs dirs flag (from_key_set l₁ keyOrder)
      = resolve_dockerfiles fs dirs flag (from_key_set l₂ keyOrder) := by
  rw [from_key_set, from_key_set,
    sortCmp_eq_of_perm (compare_image_keys keyOrder) l₁ l₂ hperm hnd
      (cik_asym keyOrder)
      (fun x _ y _ hne h => cik_total keyOrder x y hne h)
      (fun x _ y _ z _ h1 h2 => cik_trans keyOrder x y z h1 h2)]

/-- Witness for C6: two permutations of `{a, b}` resolve identically. -/
theorem C6_order_independence_witness :
    resolve_dockerfiles ["D/Dockerfile.a", "D/Dockerfile.b"] ["D"] false
        (from_key_set ["b", "a"] [])
      = resolve_dockerfiles ["D/Dockerfile.a", "D/Dockerfile.b"] ["D"] false
        (from_key_set ["a", "b"] []) :=
  C6_order_independence ["D/Dockerfile.a", "D/Dockerfile.b"] ["D"] false
    [] ["b", "a"] ["a", "b"] (by decide) (by decide)

/-- C7: `from_key_set` always succeeds, producing an ordering (a permutation)
of the key set that is strictly sorted by the source comparator; the
comparator orders two preference-listed keys by preference index, puts a
preference-listed key before an absent one, and falls back to lexicographic
comparison for two absent keys; with an empty preference list the result is
strictly lexicographically sorted. -/
theorem C7_key_ordering (keyOrder l : List String) (hnd : l.Nodup) :
    (from_key_set l keyOrder).Perm l ∧
    (from_key_set l keyOrder).Pairwise
      (fun a b => compare_image_keys keyOrder a b = -1) ∧
    (∀ a b, a ∈ keyOrder → b ∈ keyOrder →
        (compare_image_keys keyOrder a b = -1 ↔
          keyOrder.indexOf a < keyOrder.indexOf b)) ∧
    (∀ a b, a ∈ keyOrder → b ∉ keyOrder → compare_image_keys keyOrder a b = -1) ∧
    (∀ a b, a ∉ keyOrder → b ∉ keyOrder →
        (compare_image_keys keyOrder a b = -1 ↔ a < b)) ∧
    (from_key_set l []).Pairwise (fun a b : String => a < b) := by
  refine ⟨sortCmp_perm _ l, ?_, ?_, ?_, ?_, ?_⟩
  · exact sortCmp_pairwise _ l hnd
      (fun x _ y _ hne h => cik_total keyOrder x y hne h)
      (fun x _ y _ z _ h1 h2 => cik_trans keyOrder x y z h1 h2)
  · intro a b ha hb
    rw [cik_both keyOrder a b ha hb]
    exact ite_neg_one
  · intro a b ha hb
    simp [cik_left keyOrder a b ha hb]
  · intro a b ha hb
    rw [cik_none keyOrder a b ha hb]
    exact ite_neg_one
  · have hp := sortCmp_pairwise (compare_image_keys []) l hnd
      (fun x _ y _ hne h => cik_total [] x y hne h)
      (fun x _ y _ z _ h1 h2 => cik_trans [] x y z h1 h2)
    refine List.Pairwise.imp ?_ hp
    intro a b h
    rw [cik_none [] a b (by simp) (by simp), ite_neg_one] at h
    exact h

/-- Witness for C7: concrete preference list and key set. -/
theorem C7_key_ordering_witness :
    (from_key_set ["a", "z", "b"] ["z"]).Perm ["a", "z", "b"] :=
  (C7_key_ordering ["z"] ["a", "z", "b"] (by decide)).1

/-- `resolveGo` does not depend on the exact fuel value, as long as the fuel
is at least the number of remaining keys (each iteration consumes at least
one key). -/
theorem resolveGo_fuel (fs dirs : List String) (flag : Bool) :
    ∀ (f₁ : Nat) (ids : List String) (f₂ : Nat),
      ids.length ≤ f₁ → ids.length ≤ f₂ →
      resolveGo fs dirs flag f₁ ids = resolveGo fs dirs flag f₂ ids := by
  intro f₁
  induction f₁ with
  | zero =>
      intro ids f₂ h1 _
      have : ids = [] := List.length_eq_zero.mp (Nat.le_zero.mp h1)
      subst this
      cases f₂ <;> simp [resolveGo]
  | succ f ih =>
      intro ids f₂ h1 h2
      cases ids with
      | nil => cases f₂ <;> simp [resolveGo]
      | cons x rest =>
          cases f₂ with
          | zero => exact absurd h2 (by simp)
          | succ g =>
              simp only [resolveGo]
              cases hscan : scanFrom fs dirs flag (x :: rest)
                  ((x :: rest).length - 1) with
              | none => rfl
              | some r =>
                  obtain ⟨i, d⟩ := r
                  have hlen : ((x :: rest).drop (i + 1)).length ≤ f := by
                    simp only [List.length_drop, List.length_cons]
                    simp only [List.length_cons] at h1
                    omega
                  have hlen2 : ((x :: rest).drop (i + 1)).length ≤ g := by
                    simp only [List.length_drop, List.length_cons]
                    simp only [List.length_cons] at h2
                    omega
                  dsimp only
                  rw [ih ((x :: rest).drop (i + 1)) g hlen hlen2]

theorem searchDirs_none_iff (fs : List String) (layerSuffix : String) :
    ∀ dirs : List String,
      searchDirs fs layerSuffix dirs = none ↔
      ∀ d ∈ dirs, dockerfileCandidate d layerSuffix ∉ fs := by
  intro dirs
  induction dirs with
  | nil => simp [searchDirs]
  | cons d ds ih =>
      by_cases h : dockerfileCandidate d layerSuffix ∈ fs
      · simp [searchDirs, h]
      · simp only [searchDirs, h, if_false, ih, List.mem_cons]
        constructor
        · intro hall d' hd'
          rcases hd' with h1 | h2
          · exact h1 ▸ h
          · exact hall d' h2
        · intro hall d' hd'
          exact hall d' (Or.inr hd')

/-- First-listed-directory-wins: if no directory before `d` has the file and
`d` has it, the directory scan returns `d`. -/
theorem searchDirs_first (fs : List String) (layerSuffix : String)
    (ds₁ : List String) (d : String) (ds₂ : List String)
    (hmiss : ∀ d' ∈ ds₁, dockerfileCandidate d' layerSuffix ∉ fs)
    (hhit : dockerfileCandidate d layerSuffix ∈ fs) :
    searchDirs fs layerSuffix (ds₁ ++ d :: ds₂) = some d := by
  induction ds₁ with
  | nil => simp [searchDirs, hhit]
  | cons e es ih =>
      have he : dockerfileCandidate e layerSuffix ∉ fs := hmiss e (by simp)
      simp only [List.cons_append, searchDirs, he, if_false]
      exact ih (fun d' hd' => hmiss d' (by simp [hd']))

/-- With composite keys enabled, the descending scan skips candidate lengths
that match in no directory. -/
theorem scanFrom_skip (fs dirs : List String) (ids : List String) :
    ∀ (j i : Nat), i ≤ j →
      (∀ L, i + 1 < L → L ≤ j + 1 →
        ∀ d' ∈ dirs, dockerfileCandidate d' (imageKeyStr (ids.take L)) ∉ fs) →
      scanFrom fs dirs false ids j = scanFrom fs dirs false ids i := by
  intro j
  induction j with
  | zero =>
      intro i hij _
      rw [Nat.le_zero.mp hij]
  | succ k ih =>
      intro i hij hmiss
      by_cases heq : i = k + 1
      · rw [heq]
      · have hik : i ≤ k := by omega
        have hnone : searchDirs fs (imageKeyStr (ids.take (k + 2))) dirs = none :=
          (searchDirs_none_iff fs _ dirs).mpr
            (hmiss (k + 2) (by omega) (by omega))
        simp only [scanFrom, Bool.false_and, if_neg (by simp : ¬(false = true)), hnone]
        exact ih i hik (fun L h1 h2 => hmiss L h1 (by omega))

/-- C2: one round of the resolver is greedy: if no candidate length longer
than `i + 1` matches in any directory, and at length `i + 1` the first
directory (in listed order) containing the file is `d`, then the resolver
records exactly that layer definition, consumes the first `i + 1` keys from
the front, and restarts on the remainder. -/
theorem C2_greedy_longest_match (fs ds₁ ds₂ : List String) (d : String)
    (ids : List String) (i : Nat)
    (hne : ids ≠ [])
    (hilen : i < ids.length)
    (hhit : dockerfileCandidate d (imageKeyStr (ids.take (i + 1))) ∈ fs)
    (hfirst : ∀ d' ∈ ds₁, dockerfileCandidate d' (imageKeyStr (ids.take (i + 1))) ∉ fs)
    (hlongest : ∀ L, i + 1 < L → L ≤ ids.length →
        ∀ d' ∈ ds₁ ++ d :: ds₂,
          dockerfileCandidate d' (imageKeyStr (ids.take L)) ∉ fs) :
    resolve_dockerfiles fs (ds₁ ++ d :: ds₂) false ids
      = (resolve_dockerfiles fs (ds₁ ++ d :: ds₂) false (ids.drop (i + 1))).map
          (fun plan =>
            ⟨{ dockerfilePath :=
                 dockerfileCandidate d (imageKeyStr (ids.take (i + 1))),
               contextDir := d,
               imageKeys := ids.take (i + 1) } :: plan.dockerfiles, ids⟩) := by
  obtain ⟨x, rest, rfl⟩ : ∃ x rest, ids = x :: rest := by
    cases ids with
    | nil => exact absurd rfl hne
    | cons x rest => exact ⟨x, rest, rfl⟩
  have hscan_i : scanFrom fs (ds₁ ++ d :: ds₂) false (x :: rest) i = some (i, d) := by
    cases i with
    | zero =>
        simp only [scanFrom]
        rw [searchDirs_first fs _ ds₁ d ds₂ hfirst hhit]
    | succ k =>
        simp only [scanFrom, Bool.false_and, if_neg (by simp : ¬(false = true))]
        rw [searchDirs_first fs _ ds₁ d ds₂ hfirst hhit]
  have hscan : scanFrom fs (ds₁ ++ d :: ds₂) false (x :: rest)
      ((x :: rest).length - 1) = some (i, d) := by
    rw [scanFrom_skip fs (ds₁ ++ d :: ds₂) (x :: rest) ((x :: rest).length - 1) i
      (by simp only [List.length_cons] at hilen ⊢; omega)
      (fun L h1 h2 => hlongest L h1 (by simp only [List.length_cons] at h2 ⊢; omega))]
    exact hscan_i
  simp only [resolve_dockerfiles, List.length_cons]
  rw [resolveGo, hscan]
  dsimp only
  rw [resolveGo_fuel fs (ds₁ ++ d :: ds₂) false rest.length
    ((x :: rest).drop (i + 1)) ((x :: rest).drop (i + 1)).length
    (by simp only [List.length_drop, List.length_cons]; omega) (le_refl _)]
  rw [Option.map_map, Option.map_map]
  rfl

/-- Witness for C2, which is also the claim's concrete instance: with files
for both `a.b` and `a` present, resolving `[a, b]` yields the single-layer
chain for `a.b`, not two layers. -/
theorem C2_greedy_longest_match_witness :
    resolve_dockerfiles ["D/Dockerfile.a.b", "D/Dockerfile.a"] ["D"] false
        ["a", "b"]
      = some ⟨[⟨"D/Dockerfile.a.b", "D", ["a", "b"]⟩], ["a", "b"]⟩ := by
  have h := C2_greedy_longest_match ["D/Dockerfile.a.b", "D/Dockerfile.a"]
    [] [] "D" ["a", "b"] 1 (by decide) (by decide) (by decide)
    (by intro d' hd'; exact absurd hd' (List.not_mem_nil d'))
    (by
      intro L h1 h2 d' hd'
      simp only [List.length_cons, List.length_nil] at h2
      omega)
  rw [List.nil_append] at h
  rw [h]
  decide

/-- The list `[hi, hi - 1, ..., lo]` (empty when `hi < lo`). -/
def descRange (hi lo : Nat) : List Nat := (List.range' lo (hi + 1 - lo)).reverse

theorem descRange_cons (hi lo : Nat) (hlo : 1 ≤ lo) (h : lo ≤ hi) :
    descRange hi lo = hi :: descRange (hi - 1) lo := by
  unfold descRange
  have h1 : hi + 1 - lo = (hi - lo) + 1 := by omega
  have h2 : hi - 1 + 1 - lo = hi - lo := by omega
  have h3 : lo + (hi - lo) = hi := by omega
  rw [h1, h2, List.range'_1_concat, List.reverse_append, h3]
  rfl

/-- Modelled from the spec's words: search every configured directory, in
priority order, for a file named after the dotted composite of the first `L`
remaining keys; report the matched index `L - 1` with the directory. -/
def firstMatchAt (fs dirs ids : List String) (L : Nat) : Option (Nat × String) :=
  (searchDirs fs (imageKeyStr (ids.take L)) dirs).map (fun d => (L - 1, d))

/-- Modelled from the spec's words: try candidate lengths in the given order,
first match wins. -/
def tryLengths (fs dirs ids : List String) : List Nat → Option (Nat × String)
  | [] => none
  | L :: Ls =>
      match firstMatchAt fs dirs ids L with
      | some r => some r
      | none => tryLengths fs dirs ids Ls

/-- The candidate lengths one resolution round actually tries, for `n`
remaining keys.  Without the flag: `n` down to `1`.  With the flag set the
descending scan breaks upon reaching candidate length 2, so for `n ≥ 2` it
tries `n` down to `3` (neither length 2 nor 1), while for a single remaining
key length 1 is still tried. -/
def triedLengths (flag : Bool) (n : Nat) : List Nat :=
  if flag then (if n ≤ 1 then descRange n 1 else descRange n 3)
  else descRange n 1

theorem scanFrom_eq_tryLengths (fs dirs : List String) (flag : Bool)
    (ids : List String) :
    ∀ s : Nat,
      scanFrom fs dirs flag ids s
        = tryLengths fs dirs ids
            (if flag then (if s = 0 then [1] else descRange (s + 1) 3)
             else descRange (s + 1) 1) := by
  intro s
  induction s with
  | zero =>
      have hd : (if flag then (if (0 : Nat) = 0 then [1] else descRange (0 + 1) 3)
          else descRange (0 + 1) 1) = [1] := by
        cases flag <;> rfl
      rw [hd]
      simp only [scanFrom, tryLengths, firstMatchAt]
      cases searchDirs fs (imageKeyStr (ids.take 1)) dirs <;> rfl
  | succ k ih =>
      cases flag with
      | false =>
          rw [if_neg (by simp : ¬(false = true))] at ih ⊢
          rw [scanFrom,
            if_neg (by simp : ¬((false && (k + 1 == 1)) = true))]
          rw [descRange_cons (k + 2) 1 (by omega) (by omega)]
          have e2 : k + 2 - 1 = k + 1 := by omega
          simp only [tryLengths, firstMatchAt]
          cases hsd : searchDirs fs (imageKeyStr (ids.take (k + 2))) dirs with
          | some d =>
              dsimp only
              rw [e2]
              simp
          | none =>
              dsimp only
              rw [e2, ih]
              simp
      | true =>
          rw [if_pos rfl] at ih ⊢
          cases k with
          | zero =>
              rw [scanFrom,
                if_pos (by decide : (true && (0 + 1 == 1)) = true),
                if_neg (by omega : ¬(0 + 1 = 0))]
              have he : descRange (0 + 1 + 1) 3 = [] := rfl
              rw [he, tryLengths]
          | succ m =>
              rw [if_neg (by omega : ¬(m + 1 = 0))] at ih
              rw [scanFrom,
                if_neg (by
                  simp only [Bool.true_and, beq_iff_eq]
                  omega : ¬((true && (m + 1 + 1 == 1)) = true)),
                if_neg (by omega : ¬(m + 1 + 1 = 0)),
                descRange_cons (m + 1 + 1 + 1) 3 (by omega) (by omega)]
              have e3 : m + 1 + 1 + 1 - 1 = m + 1 + 1 := by omega
              simp only [tryLengths, firstMatchAt]
              cases hsd : searchDirs fs (imageKeyStr (ids.take (m + 1 + 2))) dirs with
              | some d =>
                  dsimp only
                  rw [e3]
                  simp
              | none =>
                  dsimp only
                  rw [e3, ih]
                  simp

/-- C8 (amended): one resolution round tries candidate lengths in descending
order with first match winning; without the disambiguation flag it tries
every length from the number of remaining keys down to 1; with the flag set
the scan aborts upon reaching candidate length 2, so for two or more
remaining keys only lengths down to 3 are tried (neither 2 nor 1), while for
exactly one remaining key length 1 is still tried. -/
theorem C8_candidate_lengths (fs dirs : List String) (flag : Bool)
    (ids : List String) (hne : ids ≠ []) :
    scanFrom fs dirs flag ids (ids.length - 1)
      = tryLengths fs dirs ids (triedLengths flag ids.length) := by
  obtain ⟨x, rest, rfl⟩ : ∃ x rest, ids = x :: rest := by
    cases ids with
    | nil => exact absurd rfl hne
    | cons x rest => exact ⟨x, rest, rfl⟩
  rw [scanFrom_eq_tryLengths]
  congr 1
  simp only [List.length_cons, Nat.add_sub_cancel, triedLengths]
  cases flag with
  | false => rfl
  | true =>
      rw [if_pos rfl, if_pos rfl]
      cases rest with
      | nil => rfl
      | cons y t =>
          simp only [List.length_cons]
          rw [if_neg (by omega : ¬(t.length + 1 = 0)),
            if_neg (by omega : ¬(t.length + 1 + 1 ≤ 1))]

/-- Counterexample to C8 as stated: with the flag set, the scan does not try
candidate length 2 at all.  A file for the length-2 composite `a.b` exists
(and resolution without the flag finds it), yet resolution with the flag set
fails. -/
theorem C8_counterexample :
    resolve_dockerfiles ["D/Dockerfile.a.b"] ["D"] true ["a", "b"] = none ∧
    dockerfileCandidate "D" (imageKeyStr (["a", "b"].take 2))
      ∈ ["D/Dockerfile.a.b"] ∧
    resolve_dockerfiles ["D/Dockerfile.a.b"] ["D"] false ["a", "b"]
      = some ⟨[⟨"D/Dockerfile.a.b", "D", ["a", "b"]⟩], ["a", "b"]⟩ := by
  refine ⟨by decide, by decide, by decide⟩

/-- Witness for C8 (amended) at a concrete input. -/
theorem C8_candidate_lengths_witness :
    scanFrom ["D/Dockerfile.a.b"] ["D"] true ["a", "b"] (["a", "b"].length - 1)
      = tryLengths ["D/Dockerfile.a.b"] ["D"] ["a", "b"]
          (triedLengths true ["a", "b"].length) :=
  C8_candidate_lengths ["D/Dockerfile.a.b"] ["D"] true ["a", "b"] (by decide)

/-- `md5sum` output line for one Dockerfile, as appended to the temporary
file by `ImageBuildPlan.md5hash`: `"<digest>  <basename>\n"`.  `hfile` models
the md5 digest of the file found at `context_dir / basename` (the loop runs
`os.chdir(d.context_dir_)` then `md5sum {d.dockerfile_path_.name}`). -/
def mdLine (hfile : String → String) (d : Dockerfile) : String :=
  hfile (d.contextDir ++ "/" ++ d.fileName) ++ "  " ++ d.fileName ++ "\n"

/-- Comparator realising `sorted(self.dockerfiles_, key=lambda x:
x.image_key())` in `ImageBuildPlan.md5hash`; coincides with Python's stable
key-sort whenever the composite key strings are pairwise distinct, which
holds for every chain produced from a duplicate-free key sequence. -/
def cmpByImageKey (d e : Dockerfile) : Int :=
  if d.imageKey < e.imageKey then -1 else 1

/-- `ImageBuildPlan.md5hash`: sort the chain's Dockerfiles by composite key
string, concatenate their md5 lines in that order, and digest the
concatenated text (`h` models md5 of a string, `hfile` md5 of a file). -/
def md5hash (h hfile : String → String) (ds : List Dockerfile) : String :=
  h (String.join ((sortCmp cmpByImageKey ds).map (mdLine hfile)))

theorem cmpByImageKey_eq (d e : Dockerfile) :
    (cmpByImageKey d e = -1) ↔ d.imageKey < e.imageKey := by
  unfold cmpByImageKey
  exact ite_neg_one

/-- C5: the chain fingerprint hashes the sorted-by-composite-key
concatenation of per-file hash lines, so two chains made of the same layer
definitions (same files, same content, hence the same records here) have the
same fingerprint regardless of discovery order. -/
theorem C5_fingerprint_determinism (h hfile : String → String)
    (l₁ l₂ : List Dockerfile) (hperm : l₁.Perm l₂)
    (hnd : (l₁.map Dockerfile.imageKey).Nodup) :
    md5hash h hfile l₁ = md5hash h hfile l₂ := by
  have hinj := List.inj_on_of_nodup_map hnd
  unfold md5hash
  rw [sortCmp_eq_of_perm cmpByImageKey l₁ l₂ hperm (List.Nodup.of_map _ hnd)
    (fun x y h1 h2 =>
      lt_asymm ((cmpByImageKey_eq x y).mp h1) ((cmpByImageKey_eq y x).mp h2))
    ?_ ?_]
  · intro x hx y hy hne hcmp
    rw [ne_eq, cmpByImageKey_eq] at hcmp
    rw [cmpByImageKey_eq]
    have hkne : x.imageKey ≠ y.imageKey := fun e => hne (hinj hx hy e)
    exact lt_of_le_of_ne (not_lt.mp hcmp) (fun e => hkne e.symm)
  · intro x _ y _ z _ h1 h2
    rw [cmpByImageKey_eq] at h1 h2 ⊢
    exact lt_trans h1 h2

/-- Witness for C5: two discovery orders of the same two layers. -/
theorem C5_fingerprint_determinism_witness :
    md5hash (fun s => s) (fun s => s)
        [⟨"D/Dockerfile.a", "D", ["a"]⟩, ⟨"D/Dockerfile.b", "D", ["b"]⟩]
      = md5hash (fun s => s) (fun s => s)
        [⟨"D/Dockerfile.b", "D", ["b"]⟩, ⟨"D/Dockerfile.a", "D", ["a"]⟩] :=
  C5_fingerprint_determinism (fun s => s) (fun s => s) _ _ (by decide) (by decide)

/-- `startswith` on character lists. -/
def listBeginsWith : List Char → List Char → Bool
  | _, [] => true
  | [], _ :: _ => false
  | c :: cs, p :: ps => c == p && listBeginsWith cs ps

def strContainsAux (pat : List Char) : List Char → Bool
  | [] => listBeginsWith [] pat
  | c :: cs => listBeginsWith (c :: cs) pat || strContainsAux pat cs

/-- Python's `pat in s` for strings: contiguous substring containment. -/
def strContains (s pat : String) : Bool := strContainsAux pat.data s.data

/-- A single `docker buildx bake` target dictionary as built by
`generate_bake_dict`.  `none` models the absence of the corresponding key
(the synthetic retag target has neither context, nor dockerfile, nor args);
the serializer emits the fields in a fixed order, so a record is a faithful
model of the Python dict. -/
structure TargetDict where
  name : String
  context : Option String
  dockerfile : Option String
  dockerfileInline : Option String
  tags : List String
  args : Option (List (String × String))
  dependsOn : Option (List String)
deriving DecidableEq

/-- Python `d[k] = v` on an insertion-ordered dict: replace in place when the
key exists, append otherwise. -/
def dictInsert {α : Type} : List (String × α) → String → α → List (String × α)
  | [], k, v => [(k, v)]
  | (k', v') :: rest, k, v =>
      if k' = k then (k, v) :: rest else (k', v') :: dictInsert rest k v

/-- Python `base.update(upd)`. -/
def dictUpdate {α : Type} (base upd : List (String × α)) : List (String × α) :=
  upd.foldl (fun b kv => dictInsert b kv.1 kv.2) base

/-- Python `d[k]` / `d.get(k)`: first (and, for an insertion-ordered dict,
only) binding of `k`. -/
def dictFind {α : Type} : List (String × α) → String → Option α
  | [], _ => none
  | (k', v) :: rest, k => if k' = k then some v else dictFind rest k

/-- Tag derivation in `generate_bake_dict`: Python's
`cache_from_registry and "nvcr.io" in cache_from_registry` becomes
`registry != "" && strContains registry "nvcr.io"` for the string-valued
registry (the empty string is the falsy value). -/
def mkTag (registry targetName plat : String) : String :=
  if registry != "" && strContains registry "nvcr.io" then
    registry ++ ":" ++ targetName ++ "-" ++ plat
  else
    registry ++ "/" ++ targetName ++ "-" ++ plat ++ ":latest"

/-- `"-".join(d.image_key() for d in self.dockerfiles_)`. -/
def joinKeys (ds : List Dockerfile) : String :=
  String.intercalate "-" (ds.map Dockerfile.imageKey)

/-- `ImageBuildPlan.target_name()`: dash-joined composite keys, `_`, then the
chain fingerprint. -/
def target_name (h hfile : String → String) (ds : List Dockerfile) : String :=
  joinKeys ds ++ "_" ++ md5hash h hfile ds

/-- The target name of stage `i`: `get_target(dockerfile_list[:i+1])`. -/
def stageName (h hfile : String → String) (ds : List Dockerfile) (i : Nat) :
    String :=
  target_name h hfile (ds.take (i + 1))

/-- The target dictionary the `for i, target in enumerate(dockerfile_list)`
loop of `generate_bake_dict` builds for stage `i`, before extra build args
are merged.  `"None:" ++ tname` models the tag `f"{nvcr_url}:{target_name}"`
appended when `nvcr_tag` is set (with `nvcr_url = None` in this release). -/
def realTarget (h hfile : String → String) (registry fileArch : String)
    (baseImage : Option String) (nvcrTag : Bool) (ds : List Dockerfile)
    (i : Nat) : TargetDict :=
  let tname := stageName h hfile ds i
  let d := ds.getD i ⟨"", "", []⟩
  let tags0 := [mkTag registry tname fileArch]
  let tags := if nvcrTag then tags0 ++ ["None:" ++ tname] else tags0
  if i = 0 then
    { name := tname, context := some d.contextDir,
      dockerfile := some d.fileName, dockerfileInline := none,
      tags := tags,
      args := some (match baseImage with
        | some b => dictInsert [("PLATFORM", fileArch)] "BASE_IMAGE" b
        | none => [("PLATFORM", fileArch)]),
      dependsOn := none }
  else
    { name := tname, context := some d.contextDir,
      dockerfile := some d.fileName, dockerfileInline := none,
      tags := tags,
      args := some (dictUpdate [("PLATFORM", fileArch)]
        [("BASE_IMAGE",
          mkTag registry (target_name h hfile (ds.take i)) fileArch)]),
      dependsOn := some [target_name h hfile (ds.take i)] }

/-- The stage loop of `generate_bake_dict`: insert each stage's dictionary
under its target name, in order. -/
def bakeRealTargets (h hfile : String → String) (registry fileArch : String)
    (baseImage : Option String) (nvcrTag : Bool) (ds : List Dockerfile) :
    List (String × TargetDict) :=
  (List.range ds.length).foldl
    (fun ts i =>
      dictInsert ts (stageName h hfile ds i)
        (realTarget h hfile registry fileArch baseImage nvcrTag ds i)) []

/-- `if extra_build_args: for target in targets.values():
target['args'].update(extra_build_args)`; Python skips the loop entirely for
a falsy (empty) dict, and every real target already carries an `args` key. -/
def applyExtraArgs (extra : List (String × String))
    (ts : List (String × TargetDict)) : List (String × TargetDict) :=
  match extra with
  | [] => ts
  | _ :: _ =>
      ts.map (fun kv =>
        (kv.1, { kv.2 with args := some (dictUpdate (kv.2.args.getD []) extra) }))

/-- The final-retag block of `generate_bake_dict`.  `none` models the Python
exceptions: a `KeyError` from `targets[final_key]` (empty chain) or an
`IndexError` from `final_target['tags'][0]`.  Note the context override is
applied, by reference, to the last real target (`final_target` aliases
`targets[final_key]`); the synthetic `'final_target'` entry itself carries
no context key. -/
def addFinalTarget (targetImageName : Option String)
    (contextDir : Option String) (finalKey : String)
    (ts : List (String × TargetDict)) :
    Option (List (String × TargetDict)) :=
  match targetImageName with
  | none => some ts
  | some fname =>
      match dictFind ts finalKey with
      | none => none
      | some ftd =>
          let ftd' := match contextDir with
            | some c => { ftd with context := some c }
            | none => ftd
          let ts' := match contextDir with
            | some _ => dictInsert ts finalKey ftd'
            | none => ts
          match ftd'.tags with
          | [] => none
          | t0 :: _ =>
              some (dictInsert ts' "final_target"
                { name := fname, context := none, dockerfile := none,
                  dockerfileInline := some ("FROM " ++ t0),
                  tags := [fname], args := none,
                  dependsOn := some [ftd'.name] })

/-- The dictionary `generate_bake_dict` returns: the `variables` block and
the insertion-ordered `targets` block. -/
structure BakePlan where
  bakeVariables : List (String × String)
  targets : List (String × TargetDict)
deriving DecidableEq

/-- `ImageBuildPlan.generate_bake_dict(arch, cache_from_registry, ...)`.
`buildVariables` models `self.build_variables_` (always `{}` for plans made
by `resolve_dockerfiles`); `cache_to_registry` is unused by the source and
omitted. -/
def generate_bake_dict (h hfile : String → String) (arch : String)
    (cacheFromRegistry : String) (targetImageName : Option String)
    (baseImage : Option String) (contextDir : Option String)
    (extraBuildArgs : List (String × String)) (nvcrTag : Bool)
    (buildVariables : List (String × String)) (ds : List Dockerfile) :
    Option BakePlan :=
  let fileArch := if arch = "aarch64" then "arm64" else "amd64"
  let vars := dictUpdate buildVariables
    [("ARCH", arch), ("FILE_ARCH", fileArch),
     ("CACHE_FROM_REGISTRY",
       if cacheFromRegistry = "" then "local" else cacheFromRegistry)]
  let ts := applyExtraArgs extraBuildArgs
    (bakeRealTargets h hfile cacheFromRegistry fileArch baseImage nvcrTag ds)
  (addFinalTarget targetImageName contextDir (target_name h hfile ds) ts).map
    (fun ts' => ⟨vars, ts'⟩)

theorem dictInsert_of_not_mem {α : Type} :
    ∀ (ts : List (String × α)) (k : String) (v : α),
      k ∉ ts.map Prod.fst → dictInsert ts k v = ts ++ [(k, v)] := by
  intro ts
  induction ts with
  | nil => intro k v _; rfl
  | cons kv rest ih =>
      intro k v hk
      obtain ⟨k', v'⟩ := kv
      simp only [List.map_cons, List.mem_cons, not_or] at hk
      rw [dictInsert, if_neg (fun e => hk.1 e.symm), ih k v hk.2, List.cons_append]

theorem dictFind_append_of_not_mem {α : Type} :
    ∀ (l₁ l₂ : List (String × α)) (k : String),
      k ∉ l₁.map Prod.fst → dictFind (l₁ ++ l₂) k = dictFind l₂ k := by
  intro l₁
  induction l₁ with
  | nil => intro l₂ k _; rfl
  | cons kv rest ih =>
      intro l₂ k hk
      obtain ⟨k', v'⟩ := kv
      simp only [List.map_cons, List.mem_cons, not_or] at hk
      rw [List.cons_append, dictFind, if_neg (fun e => hk.1 e.symm), ih l₂ k hk.2]

theorem dictInsert_append_replace {α : Type} :
    ∀ (l₁ : List (String × α)) (k : String) (v v' : α) (l₂ : List (String × α)),
      k ∉ l₁.map Prod.fst →
      dictInsert (l₁ ++ (k, v) :: l₂) k v' = l₁ ++ (k, v') :: l₂ := by
  intro l₁
  induction l₁ with
  | nil =>
      intro k v v' l₂ _
      simp [dictInsert]
  | cons kv rest ih =>
      intro k v v' l₂ hk
      obtain ⟨k', v''⟩ := kv
      simp only [List.map_cons, List.mem_cons, not_or] at hk
      rw [List.cons_append, dictInsert, if_neg (fun e => hk.1 e.symm),
        ih k v v' l₂ hk.2, List.cons_append]

theorem dictFind_dictInsert_ne {α : Type} (k' : String) (v : α) (k : String)
    (hne : k' ≠ k) :
    ∀ base : List (String × α),
      dictFind (dictInsert base k' v) k = dictFind base k := by
  intro base
  induction base with
  | nil => simp [dictInsert, dictFind, hne]
  | cons kv rest ih =>
      obtain ⟨k'', v''⟩ := kv
      by_cases he : k'' = k'
      · rw [dictInsert, if_pos he, dictFind, if_neg hne, dictFind,
          if_neg (fun e => hne (he.symm.trans e))]
      · rw [dictInsert, if_neg he, dictFind, dictFind, ih]

theorem dictFind_dictUpdate_not_mem {α : Type} (upd : List (String × α))
    (k : String) (hk : ∀ kv ∈ upd, kv.1 ≠ k) :
    ∀ base : List (String × α),
      dictFind (dictUpdate base upd) k = dictFind base k := by
  induction upd with
  | nil => intro base; rfl
  | cons kv rest ih =>
      intro base
      rw [dictUpdate, List.foldl_cons]
      have h1 : dictFind (dictUpdate (dictInsert base kv.1 kv.2) rest) k
          = dictFind (dictInsert base kv.1 kv.2) k :=
        ih (fun kv' h => hk kv' (by simp [h])) (dictInsert base kv.1 kv.2)
      rw [dictUpdate] at h1
      rw [h1, dictFind_dictInsert_ne kv.1 kv.2 k (hk kv (by simp))]

theorem foldl_dictInsert_eq_map {α : Type} (keyOf : Nat → String)
    (valOf : Nat → α) :
    ∀ (is : List Nat) (acc : List (String × α)),
      (is.map keyOf).Nodup →
      (∀ i ∈ is, keyOf i ∉ acc.map Prod.fst) →
      is.foldl (fun ts i => dictInsert ts (keyOf i) (valOf i)) acc
        = acc ++ is.map (fun i => (keyOf i, valOf i)) := by
  intro is
  induction is with
  | nil => intro acc _ _; simp
  | cons j js ih =>
      intro acc hnd hacc
      rw [List.map_cons, List.nodup_cons] at hnd
      rw [List.foldl_cons, dictInsert_of_not_mem acc (keyOf j) (valOf j)
        (hacc j (by simp))]
      rw [ih (acc ++ [(keyOf j, valOf j)]) hnd.2 ?_]
      · simp
      · intro i hi
        simp only [List.map_append, List.mem_append, List.map_cons,
          List.map_nil, List.mem_singleton, not_or]
        refine ⟨hacc i (by simp [hi]), ?_⟩
        intro e
        exact hnd.1 (e ▸ List.mem_map_of_mem keyOf hi)

/-- The per-target effect of the extra-build-args merge. -/
def withExtra (extra : List (String × String)) (td : TargetDict) : TargetDict :=
  match extra with
  | [] => td
  | _ :: _ => { td with args := some (dictUpdate (td.args.getD []) extra) }

theorem applyExtraArgs_map (extra : List (String × String))
    (ts : List (String × TargetDict)) :
    applyExtraArgs extra ts = ts.map (fun kv => (kv.1, withExtra extra kv.2)) := by
  cases extra with
  | nil => simp [applyExtraArgs, withExtra]
  | cons kv rest => rfl

theorem withExtra_name (extra : List (String × String)) (td : TargetDict) :
    (withExtra extra td).name = td.name := by
  cases extra <;> rfl

theorem withExtra_tags (extra : List (String × String)) (td : TargetDict) :
    (withExtra extra td).tags = td.tags := by
  cases extra <;> rfl

theorem withExtra_dependsOn (extra : List (String × String)) (td : TargetDict) :
    (withExtra extra td).dependsOn = td.dependsOn := by
  cases extra <;> rfl

theorem withExtra_baseImage (extra : List (String × String)) (td : TargetDict)
    (hbi : ∀ kv ∈ extra, kv.1 ≠ "BASE_IMAGE") :
    dictFind ((withExtra extra td).args.getD []) "BASE_IMAGE"
      = dictFind (td.args.getD []) "BASE_IMAGE" := by
  cases extra with
  | nil => rfl
  | cons kv rest =>
      show dictFind (dictUpdate (td.args.getD []) (kv :: rest)) "BASE_IMAGE"
        = dictFind (td.args.getD []) "BASE_IMAGE"
      exact dictFind_dictUpdate_not_mem (kv :: rest) "BASE_IMAGE" hbi _

theorem realTarget_name (h hfile : String → String) (registry fileArch : String)
    (baseImage : Option String) (nvcrTag : Bool) (ds : List Dockerfile) (i : Nat) :
    (realTarget h hfile registry fileArch baseImage nvcrTag ds i).name
      = stageName h hfile ds i := by
  unfold realTarget
  split_ifs <;> rfl

theorem realTarget_dependsOn (h hfile : String → String)
    (registry fileArch : String) (baseImage : Option String) (nvcrTag : Bool)
    (ds : List Dockerfile) (i : Nat) :
    (realTarget h hfile registry fileArch baseImage nvcrTag ds i).dependsOn
      = if i = 0 then none else some [target_name h hfile (ds.take i)] := by
  unfold realTarget
  split_ifs <;> rfl

theorem realTarget_tags (h hfile : String → String) (registry fileArch : String)
    (baseImage : Option String) (nvcrTag : Bool) (ds : List Dockerfile) (i : Nat) :
    (realTarget h hfile registry fileArch baseImage nvcrTag ds i).tags
      = mkTag registry (stageName h hfile ds i) fileArch
        :: (if nvcrTag then ["None:" ++ stageName h hfile ds i] else []) := by
  unfold realTarget
  cases nvcrTag <;> split_ifs <;> rfl

theorem realTarget_baseImage (h hfile : String → String)
    (registry fileArch : String) (baseImage : Option String) (nvcrTag : Bool)
    (ds : List Dockerfile) (i : Nat) :
    dictFind ((realTarget h hfile registry fileArch baseImage nvcrTag ds i).args.getD [])
        "BASE_IMAGE"
      = (if i = 0 then baseImage
         else some (mkTag registry (target_name h hfile (ds.take i)) fileArch)) := by
  unfold realTarget
  by_cases h0 : i = 0
  · rw [if_pos h0, if_pos h0]
    cases baseImage with
    | none => simp [dictFind]
    | some b => simp [dictInsert, dictFind]
  · rw [if_neg h0, if_neg h0]
    simp [dictUpdate, dictInsert, dictFind]

theorem bakeRealTargets_eq (h hfile : String → String)
    (registry fileArch : String) (baseImage : Option String) (nvcrTag : Bool)
    (ds : List Dockerfile)
    (hnd : ((List.range ds.length).map (stageName h hfile ds)).Nodup) :
    bakeRealTargets h hfile registry fileArch baseImage nvcrTag ds
      = (List.range ds.length).map (fun i =>
          (stageName h hfile ds i,
           realTarget h hfile registry fileArch baseImage nvcrTag ds i)) := by
  unfold bakeRealTargets
  rw [foldl_dictInsert_eq_map (stageName h hfile ds)
    (realTarget h hfile registry fileArch baseImage nvcrTag ds)
    (List.range ds.length) [] hnd (by simp)]
  simp

/-- The stage dictionaries after the extra-build-args merge. -/
def stageTd (h hfile : String → String) (registry fileArch : String)
    (baseImage : Option String) (nvcrTag : Bool)
    (extra : List (String × String)) (ds : List Dockerfile) (i : Nat) :
    TargetDict :=
  withExtra extra (realTarget h hfile registry fileArch baseImage nvcrTag ds i)

theorem generate_targets_no_final (h hfile : String → String)
    (arch registry : String) (baseImage contextDir : Option String)
    (extra : List (String × String)) (nvcrTag : Bool)
    (bv : List (String × String)) (ds : List Dockerfile) (plan : BakePlan)
    (hplan : generate_bake_dict h hfile arch registry none baseImage
        contextDir extra nvcrTag bv ds = some plan)
    (hnd : ((List.range ds.length).map (stageName h hfile ds)).Nodup) :
    plan.targets
      = (List.range ds.length).map (fun i =>
          (stageName h hfile ds i,
           stageTd h hfile registry (if arch = "aarch64" then "arm64" else "amd64")
             baseImage nvcrTag extra ds i)) := by
  simp only [generate_bake_dict, addFinalTarget, Option.map_some'] at hplan
  obtain rfl := (Option.some.inj hplan)
  show applyExtraArgs extra (bakeRealTargets h hfile registry _ baseImage nvcrTag ds) = _
  rw [applyExtraArgs_map,
    bakeRealTargets_eq h hfile registry _ baseImage nvcrTag ds hnd,
    List.map_map]
  rfl

theorem generate_targets_with_final (h hfile : String → String)
    (arch registry fname : String) (baseImage contextDir : Option String)
    (extra : List (String × String)) (nvcrTag : Bool)
    (bv : List (String × String)) (ds : List Dockerfile) (plan : BakePlan)
    (hplan : generate_bake_dict h hfile arch registry (some fname) baseImage
        contextDir extra nvcrTag bv ds = some plan)
    (hnd : ((List.range ds.length).map (stageName h hfile ds)).Nodup)
    (hft : "final_target" ∉ (List.range ds.length).map (stageName h hfile ds)) :
    ∃ m, ds.length = m + 1 ∧
      plan.targets
        = ((List.range m).map (fun i =>
            (stageName h hfile ds i,
             stageTd h hfile registry
               (if arch = "aarch64" then "arm64" else "amd64")
               baseImage nvcrTag extra ds i)))
          ++ [(stageName h hfile ds m,
               (match contextDir with
                | some c =>
                    { stageTd h hfile registry
                        (if arch = "aarch64" then "arm64" else "amd64")
                        baseImage nvcrTag extra ds m with context := some c }
                | none =>
                    stageTd h hfile registry
                      (if arch = "aarch64" then "arm64" else "amd64")
                      baseImage nvcrTag extra ds m)),
              ("final_target",
               { name := fname, context := none, dockerfile := none,
                 dockerfileInline := some ("FROM "
                   ++ mkTag registry (stageName h hfile ds m)
                        (if arch = "aarch64" then "arm64" else "amd64")),
                 tags := [fname], args := none,
                 dependsOn := some [stageName h hfile ds m] })] := by
  simp only [generate_bake_dict, Option.map_eq_some'] at hplan
  obtain ⟨ts', hts', rfl⟩ := hplan
  rw [applyExtraArgs_map,
    bakeRealTargets_eq h hfile registry _ baseImage nvcrTag ds hnd,
    List.map_map] at hts'
  have hcomp : ((fun kv : String × TargetDict => (kv.1, withExtra extra kv.2)) ∘
      (fun i => (stageName h hfile ds i,
        realTarget h hfile registry (if arch = "aarch64" then "arm64" else "amd64")
          baseImage nvcrTag ds i)))
      = (fun i => (stageName h hfile ds i,
          stageTd h hfile registry (if arch = "aarch64" then "arm64" else "amd64")
            baseImage nvcrTag extra ds i)) := rfl
  rw [hcomp] at hts'
  cases hlen : ds.length with
  | zero =>
      rw [hlen] at hts'
      simp only [List.range_zero, List.map_nil, addFinalTarget, dictFind] at hts'
      exact absurd hts' (by simp)
  | succ m =>
      rw [hlen] at hts' hnd hft
      refine ⟨m, rfl, ?_⟩
      rw [List.range_succ, List.map_append, List.map_cons, List.map_nil]
        at hts' hnd hft
      have hkey : stageName h hfile ds m = target_name h hfile ds := by
        unfold stageName
        rw [List.take_of_length_le (le_of_eq hlen)]
      rw [List.nodup_append] at hnd
      have hmem : stageName h hfile ds m
          ∉ (List.range m).map (stageName h hfile ds) := by
        intro hin
        exact hnd.2.2 hin (by simp)
      have hkeys : (((List.range m).map (fun i =>
          (stageName h hfile ds i,
           stageTd h hfile registry (if arch = "aarch64" then "arm64" else "amd64")
             baseImage nvcrTag extra ds i))).map Prod.fst)
          = (List.range m).map (stageName h hfile ds) := by
        rw [List.map_map]
        rfl
      rw [← hkey] at hts'
      have hfind : dictFind
          (((List.range m).map (fun i =>
            (stageName h hfile ds i,
             stageTd h hfile registry
               (if arch = "aarch64" then "arm64" else "amd64")
               baseImage nvcrTag extra ds i)))
            ++ [(stageName h hfile ds m,
                 stageTd h hfile registry
                   (if arch = "aarch64" then "arm64" else "amd64")
                   baseImage nvcrTag extra ds m)])
          (stageName h hfile ds m)
          = some (stageTd h hfile registry
              (if arch = "aarch64" then "arm64" else "amd64")
              baseImage nvcrTag extra ds m) := by
        rw [dictFind_append_of_not_mem _ _ _ (by rw [hkeys]; exact hmem)]
        simp [dictFind]
      have htags : (stageTd h hfile registry
          (if arch = "aarch64" then "arm64" else "amd64")
          baseImage nvcrTag extra ds m).tags
          = mkTag registry (stageName h hfile ds m)
              (if arch = "aarch64" then "arm64" else "amd64")
            :: (if nvcrTag then ["None:" ++ stageName h hfile ds m] else []) := by
        unfold stageTd
        rw [withExtra_tags, realTarget_tags]
      have hname : (stageTd h hfile registry
          (if arch = "aarch64" then "arm64" else "amd64")
          baseImage nvcrTag extra ds m).name = stageName h hfile ds m := by
        unfold stageTd
        rw [withExtra_name, realTarget_name]
      have hftkeys : "final_target"
          ∉ ((List.range m).map (stageName h hfile ds)) ++ [stageName h hfile ds m] :=
        hft
      cases contextDir with
      | none =>
          simp only [addFinalTarget, hfind, htags, hname] at hts'
          rw [dictInsert_of_not_mem _ _ _ (by
            simp only [List.map_append, hkeys, List.map_cons, List.map_nil]
            exact hftkeys)] at hts'
          obtain rfl := (Option.some.inj hts').symm
          simp
      | some c =>
          simp only [addFinalTarget, hfind] at hts'
          rw [dictInsert_append_replace _ _ _ _ _ (by rw [hkeys]; exact hmem)]
            at hts'
          simp only [htags, hname] at hts'
          rw [dictInsert_of_not_mem _ _ _ (by
            simp only [List.map_append, hkeys, List.map_cons, List.map_nil]
            exact hftkeys)] at hts'
          obtain rfl := (Option.some.inj hts').symm
          simp
          exact ⟨hname.symm, htags.symm⟩

theorem plan_real_entry (h hfile : String → String) (arch registry : String)
    (finalName baseImage contextDir : Option String)
    (extra : List (String × String)) (nvcrTag : Bool)
    (bv : List (String × String)) (ds : List Dockerfile) (plan : BakePlan)
    (hplan : generate_bake_dict h hfile arch registry finalName baseImage
        contextDir extra nvcrTag bv ds = some plan)
    (hnd : ((List.range ds.length).map (stageName h hfile ds)).Nodup)
    (hft : "final_target" ∉ (List.range ds.length).map (stageName h hfile ds))
    (i : Nat) (hi : i < ds.length) :
    ∃ td, plan.targets[i]? = some (stageName h hfile ds i, td)
      ∧ td.name = (stageTd h hfile registry
          (if arch = "aarch64" then "arm64" else "amd64")
          baseImage nvcrTag extra ds i).name
      ∧ td.tags = (stageTd h hfile registry
          (if arch = "aarch64" then "arm64" else "amd64")
          baseImage nvcrTag extra ds i).tags
      ∧ td.dependsOn = (stageTd h hfile registry
          (if arch = "aarch64" then "arm64" else "amd64")
          baseImage nvcrTag extra ds i).dependsOn
      ∧ td.args = (stageTd h hfile registry
          (if arch = "aarch64" then "arm64" else "amd64")
          baseImage nvcrTag extra ds i).args := by
  cases finalName with
  | none =>
      rw [generate_targets_no_final h hfile arch registry baseImage contextDir
        extra nvcrTag bv ds plan hplan hnd]
      refine ⟨stageTd h hfile registry _ baseImage nvcrTag extra ds i,
        ?_, rfl, rfl, rfl, rfl⟩
      rw [List.getElem?_map, List.getElem?_range hi, Option.map_some']
  | some fname =>
      obtain ⟨m, hm, htargets⟩ := generate_targets_with_final h hfile arch
        registry fname baseImage contextDir extra nvcrTag bv ds plan hplan hnd hft
      rw [htargets]
      by_cases him : i < m
      · refine ⟨stageTd h hfile registry _ baseImage nvcrTag extra ds i,
          ?_, rfl, rfl, rfl, rfl⟩
        rw [List.getElem?_append_left (by
          simp only [List.length_map, List.length_range]
          exact him)]
        rw [List.getElem?_map, List.getElem?_range him, Option.map_some']
      · have hieq : i = m := by omega
        subst hieq
        have hflen : ((List.range i).map (fun j =>
            (stageName h hfile ds j,
             stageTd h hfile registry
               (if arch = "aarch64" then "arm64" else "amd64")
               baseImage nvcrTag extra ds j))).length = i := by
          simp
        cases contextDir with
        | none =>
            refine ⟨stageTd h hfile registry _ baseImage nvcrTag extra ds i,
              ?_, rfl, rfl, rfl, rfl⟩
            rw [List.getElem?_append_right (le_of_eq hflen), hflen, Nat.sub_self]
            rfl
        | some c =>
            refine ⟨{ stageTd h hfile registry
                (if arch = "aarch64" then "arm64" else "amd64")
                baseImage nvcrTag extra ds i with context := some c },
              ?_, rfl, rfl, rfl, rfl⟩
            rw [List.getElem?_append_right (le_of_eq hflen), hflen, Nat.sub_self]
            rfl

theorem mkTag_eq_contains (reg n p : String) :
    mkTag reg n p
      = (if strContains reg "nvcr.io" = true then reg ++ ":" ++ n ++ "-" ++ p
         else reg ++ "/" ++ n ++ "-" ++ p ++ ":latest") := by
  unfold mkTag
  split_ifs with h1 h2 h3 <;> try rfl
  · exfalso
    rw [Bool.and_eq_true] at h1
    exact h2 h1.2
  · exfalso
    rw [Bool.and_eq_true, not_and] at h1
    have hr : ¬((reg != "") = true) := fun hb => h1 hb h3
    have hempty : reg = "" := by
      by_contra hne
      exact hr (bne_iff_ne.mpr hne)
    subst hempty
    exact absurd h3 (by decide)

/-- C3: for a chain of N layers the compiled bake dictionary has exactly N
real targets, one per chain prefix; stage `i`'s key (and name) is the dash
join of the first `i+1` composite keys, `_`, and the fingerprint of that
prefix; stage 0 has no dependency edge and carries the optional base-image
override as its `BASE_IMAGE` build argument; stage `i > 0` depends on
exactly stage `i-1` and carries stage `i-1`'s resolved (primary) tag as
`BASE_IMAGE`; one synthetic retag target is present if and only if a final
image name was requested.  Hypotheses: the stage names are pairwise distinct
and distinct from the literal `final_target` key (no fingerprint
collisions), and the extra build args do not rebind `BASE_IMAGE` (the
documented caller-wins merge would otherwise override it). -/
theorem C3_build_graph (h hfile : String → String) (arch registry : String)
    (finalName baseImage contextDir : Option String)
    (extra : List (String × String)) (nvcrTag : Bool)
    (bv : List (String × String)) (ds : List Dockerfile) (plan : BakePlan)
    (hplan : generate_bake_dict h hfile arch registry finalName baseImage
        contextDir extra nvcrTag bv ds = some plan)
    (hnd : ((List.range ds.length).map (stageName h hfile ds)).Nodup)
    (hft : "final_target" ∉ (List.range ds.length).map (stageName h hfile ds))
    (hbi : ∀ kv ∈ extra, kv.1 ≠ "BASE_IMAGE") :
    (plan.targets.map Prod.fst
        = (List.range ds.length).map (stageName h hfile ds)
          ++ (if finalName.isSome then ["final_target"] else []))
    ∧ plan.targets.length = ds.length + (if finalName.isSome then 1 else 0)
    ∧ (∀ i, stageName h hfile ds i
        = joinKeys (ds.take (i + 1)) ++ "_" ++ md5hash h hfile (ds.take (i + 1)))
    ∧ (∀ i, i < ds.length → ∃ td,
        plan.targets[i]? = some (stageName h hfile ds i, td)
        ∧ td.name = stageName h hfile ds i
        ∧ td.dependsOn = (if i = 0 then none
            else some [stageName h hfile ds (i - 1)])
        ∧ dictFind (td.args.getD []) "BASE_IMAGE"
            = (if i = 0 then baseImage
               else some (mkTag registry (stageName h hfile ds (i - 1))
                 (if arch = "aarch64" then "arm64" else "amd64")))
        ∧ td.tags.head? = some (mkTag registry (stageName h hfile ds i)
            (if arch = "aarch64" then "arm64" else "amd64"))) := by
  have hkeys : plan.targets.map Prod.fst
      = (List.range ds.length).map (stageName h hfile ds)
        ++ (if finalName.isSome then ["final_target"] else []) := by
    cases finalName with
    | none =>
        rw [generate_targets_no_final h hfile arch registry baseImage
          contextDir extra nvcrTag bv ds plan hplan hnd]
        simp [List.map_map]
    | some fname =>
        obtain ⟨m, hm, htargets⟩ := generate_targets_with_final h hfile arch
          registry fname baseImage contextDir extra nvcrTag bv ds plan hplan
          hnd hft
        rw [htargets, hm, List.range_succ]
        simp only [List.map_append, List.map_map, List.map_cons, List.map_nil,
          Option.isSome_some, if_true, List.append_assoc]
        cases contextDir <;> simp
  refine ⟨hkeys, ?_, fun i => rfl, ?_⟩
  · have hlen := congrArg List.length hkeys
    rw [List.length_map] at hlen
    rw [hlen]
    cases finalName <;> simp
  · intro i hi
    obtain ⟨td, hentry, hnm, htg, hdep, harg⟩ := plan_real_entry h hfile arch
      registry finalName baseImage contextDir extra nvcrTag bv ds plan hplan
      hnd hft i hi
    refine ⟨td, hentry, ?_, ?_, ?_, ?_⟩
    · rw [hnm]
      unfold stageTd
      rw [withExtra_name, realTarget_name]
    · rw [hdep]
      unfold stageTd
      rw [withExtra_dependsOn, realTarget_dependsOn]
      by_cases h0 : i = 0
      · rw [if_pos h0, if_pos h0]
      · rw [if_neg h0, if_neg h0]
        unfold stageName
        rw [Nat.sub_add_cancel (Nat.one_le_iff_ne_zero.mpr h0)]
    · rw [harg]
      unfold stageTd
      rw [withExtra_baseImage extra _ hbi, realTarget_baseImage]
      by_cases h0 : i = 0
      · rw [if_pos h0, if_pos h0]
      · rw [if_neg h0, if_neg h0]
        unfold stageName
        rw [Nat.sub_add_cancel (Nat.one_le_iff_ne_zero.mpr h0)]
    · rw [htg]
      unfold stageTd
      rw [withExtra_tags, realTarget_tags]
      rfl

/-- C4: every real stage's (primary) tag obeys the registry rule: colon form
`registry:stagename-arch` when the registry name contains `nvcr.io`, path
form `registry/stagename-arch:latest` otherwise, for every stage of every
compiled build graph (the synthetic retag target is tagged with the
requested final name itself, per the final-retag rule). -/
theorem C4_tag_format (h hfile : String → String) (arch registry : String)
    (finalName baseImage contextDir : Option String)
    (extra : List (String × String)) (nvcrTag : Bool)
    (bv : List (String × String)) (ds : List Dockerfile) (plan : BakePlan)
    (hplan : generate_bake_dict h hfile arch registry finalName baseImage
        contextDir extra nvcrTag bv ds = some plan)
    (hnd : ((List.range ds.length).map (stageName h hfile ds)).Nodup)
    (hft : "final_target" ∉ (List.range ds.length).map (stageName h hfile ds)) :
    ∀ i, i < ds.length → ∃ td,
      plan.targets[i]? = some (stageName h hfile ds i, td)
      ∧ td.tags.head?
          = some (if strContains registry "nvcr.io" = true then
              registry ++ ":" ++ stageName h hfile ds i ++ "-"
                ++ (if arch = "aarch64" then "arm64" else "amd64")
            else
              registry ++ "/" ++ stageName h hfile ds i ++ "-"
                ++ (if arch = "aarch64" then "arm64" else "amd64")
                ++ ":latest") := by
  intro i hi
  obtain ⟨td, hentry, _, htg, _, _⟩ := plan_real_entry h hfile arch registry
    finalName baseImage contextDir extra nvcrTag bv ds plan hplan hnd hft i hi
  refine ⟨td, hentry, ?_⟩
  rw [htg]
  unfold stageTd
  rw [withExtra_tags, realTarget_tags]
  simp only [List.head?_cons]
  rw [mkTag_eq_contains]

/-- C9 (amended): when a final image name is requested the compiler appends
exactly one synthetic terminal target, keyed `final_target`, whose inline
build instructions are the single `FROM` line deriving from the last real
stage's primary (first) tag, whose dependency list is exactly the last real
stage's target name, whose tag list is exactly the requested final name, and
whose build context is left unset; a supplied context override is applied to
the last real stage's target instead. -/
theorem C9_final_retag (h hfile : String → String) (arch registry fname : String)
    (baseImage contextDir : Option String) (extra : List (String × String))
    (nvcrTag : Bool) (bv : List (String × String)) (ds : List Dockerfile)
    (plan : BakePlan)
    (hplan : generate_bake_dict h hfile arch registry (some fname) baseImage
        contextDir extra nvcrTag bv ds = some plan)
    (hnd : ((List.range ds.length).map (stageName h hfile ds)).Nodup)
    (hft : "final_target" ∉ (List.range ds.length).map (stageName h hfile ds)) :
    ∃ m, ds.length = m + 1
      ∧ plan.targets[m + 1]? = some ("final_target",
          { name := fname, context := none, dockerfile := none,
            dockerfileInline := some ("FROM "
              ++ mkTag registry (stageName h hfile ds m)
                   (if arch = "aarch64" then "arm64" else "amd64")),
            tags := [fname], args := none,
            dependsOn := some [stageName h hfile ds m] })
      ∧ (∀ c, contextDir = some c → ∃ td,
          plan.targets[m]? = some (stageName h hfile ds m, td)
          ∧ td.context = some c) := by
  obtain ⟨m, hm, htargets⟩ := generate_targets_with_final h hfile arch registry
    fname baseImage contextDir extra nvcrTag bv ds plan hplan hnd hft
  have hflen : ((List.range m).map (fun j =>
      (stageName h hfile ds j,
       stageTd h hfile registry (if arch = "aarch64" then "arm64" else "amd64")
         baseImage nvcrTag extra ds j))).length = m := by
    simp
  refine ⟨m, hm, ?_, ?_⟩
  · rw [htargets,
      List.getElem?_append_right (by rw [hflen]; omega), hflen]
    have : m + 1 - m = 1 := by omega
    rw [this]
    rfl
  · intro c hc
    subst hc
    refine ⟨{ stageTd h hfile registry
        (if arch = "aarch64" then "arm64" else "amd64")
        baseImage nvcrTag extra ds m with context := some c }, ?_, rfl⟩
    rw [htargets,
      List.getElem?_append_right (le_of_eq hflen), hflen, Nat.sub_self]
    rfl

/-- Counterexample to C9 as stated: with a context override supplied, the
synthetic retag target does not carry it — its dictionary has no context key
at all (the override is applied to the last real stage's target instead, see
`C9_final_retag`). -/
theorem C9_counterexample :
    ((generate_bake_dict (fun _ => "H") (fun _ => "H") "x86_64" "reg"
        (some "img") none (some "CTX") [] false []
        [⟨"D/Dockerfile.a", "D", ["a"]⟩]).bind
      (fun plan => dictFind plan.targets "final_target")).map
        TargetDict.context
      = some none := by decide

/-- Witness for C3: a two-layer chain with a requested final name compiles
to 2 real targets plus the synthetic one. -/
theorem C3_build_graph_witness :
    ((generate_bake_dict (fun _ => "H") (fun _ => "H") "x86_64" "reg"
        (some "img") (some "base") none [] false []
        [⟨"D/Dockerfile.a", "D", ["a"]⟩, ⟨"D/Dockerfile.b", "D", ["b"]⟩]).getD
      ⟨[], []⟩).targets.length = 2 + 1 := by
  have hplan : generate_bake_dict (fun _ => "H") (fun _ => "H") "x86_64" "reg"
      (some "img") (some "base") none [] false []
      [⟨"D/Dockerfile.a", "D", ["a"]⟩, ⟨"D/Dockerfile.b", "D", ["b"]⟩]
      = some ((generate_bake_dict (fun _ => "H") (fun _ => "H") "x86_64" "reg"
          (some "img") (some "base") none [] false []
          [⟨"D/Dockerfile.a", "D", ["a"]⟩, ⟨"D/Dockerfile.b", "D", ["b"]⟩]).getD
        ⟨[], []⟩) := by decide
  have hmain := C3_build_graph (fun _ => "H") (fun _ => "H") "x86_64" "reg"
    (some "img") (some "base") none [] false []
    [⟨"D/Dockerfile.a", "D", ["a"]⟩, ⟨"D/Dockerfile.b", "D", ["b"]⟩] _ hplan
    (by decide) (by decide) (by simp)
  rw [hmain.2.1]
  decide

/-- Witness for C4: stage 0 of a one-layer chain against an `nvcr.io`
registry gets the colon-form tag. -/
theorem C4_tag_format_witness :
    (((generate_bake_dict (fun _ => "H") (fun _ => "H") "x86_64"
        "nvcr.io/team/repo" none none none [] false []
        [⟨"D/Dockerfile.a", "D", ["a"]⟩]).getD ⟨[], []⟩).targets[0]?).map
      (fun kv => kv.2.tags.head?)
      = some (some "nvcr.io/team/repo:a_H-amd64") := by
  have hplan : generate_bake_dict (fun _ => "H") (fun _ => "H") "x86_64"
      "nvcr.io/team/repo" none none none [] false []
      [⟨"D/Dockerfile.a", "D", ["a"]⟩]
      = some ((generate_bake_dict (fun _ => "H") (fun _ => "H") "x86_64"
          "nvcr.io/team/repo" none none none [] false []
          [⟨"D/Dockerfile.a", "D", ["a"]⟩]).getD ⟨[], []⟩) := by decide
  obtain ⟨td, hentry, htag⟩ := C4_tag_format (fun _ => "H") (fun _ => "H")
    "x86_64" "nvcr.io/team/repo" none none none [] false []
    [⟨"D/Dockerfile.a", "D", ["a"]⟩] _ hplan (by decide) (by decide) 0
    (by decide)
  rw [hentry, Option.map_some', htag]
  decide

/-- Witness for C9 (amended) on a one-layer chain with a context override. -/
theorem C9_final_retag_witness :
    (((generate_bake_dict (fun _ => "H") (fun _ => "H") "x86_64" "reg"
        (some "img") none (some "CTX") [] false []
        [⟨"D/Dockerfile.a", "D", ["a"]⟩]).getD ⟨[], []⟩).targets[1]?).map
      (fun kv => (kv.1, kv.2.dockerfileInline, kv.2.dependsOn, kv.2.tags,
        kv.2.context))
      = some ("final_target", some "FROM reg/a_H-amd64:latest",
          some ["a_H"], ["img"], none) := by
  have hplan : generate_bake_dict (fun _ => "H") (fun _ => "H") "x86_64" "reg"
      (some "img") none (some "CTX") [] false []
      [⟨"D/Dockerfile.a", "D", ["a"]⟩]
      = some ((generate_bake_dict (fun _ => "H") (fun _ => "H") "x86_64" "reg"
          (some "img") none (some "CTX") [] false []
          [⟨"D/Dockerfile.a", "D", ["a"]⟩]).getD ⟨[], []⟩) := by decide
  obtain ⟨m, hm, hfinal, hctx⟩ := C9_final_retag (fun _ => "H") (fun _ => "H")
    "x86_64" "reg" "img" none (some "CTX") [] false []
    [⟨"D/Dockerfile.a", "D", ["a"]⟩] _ hplan (by decide) (by decide)
  have hm0 : m = 0 := by
    simp only [List.length_cons, List.length_nil] at hm
    omega
  subst hm0
  rw [hfinal, Option.map_some']
  decide
